import Mathlib

/-!
A shallow embedding of `fkupdate.py`, the functional core of the
`filekeepupdate` repository, together with theorems settling the spec's
claims about it.

Modelling choices:
* A file content is a list of bytes (`Content := List Nat`).
* The filesystem is a map from path to optional content
  (`FS := String → Option Content`); `none` means the path does not exist.
* The hashing primitive `hashlib` is an external collaborator, modelled as
  an arbitrary function `HashFn` from algorithm name and content to a hex
  digest string.  `hash_of_file` streams the file in 1 MiB chunks in the
  source; the resulting digest depends only on the full content, which is
  what the model computes.
* The network is an external collaborator, modelled by a function from URL
  to `NetResult`.  `NetResult.err` models `urllib.error.HTTPError` or
  `urllib.error.URLError` raised by `urlopen` (these are the exceptions
  the source catches); `NetResult.stream c none` models a response whose
  body `c` is copied to disk completely; `NetResult.stream c (some n)`
  models a response that fails while its body is being copied (for
  instance a connection reset during `shutil.copyfileobj`), after `n`
  bytes were written: such an exception is not an `HTTPError`/`URLError`
  and is therefore not caught by `download`.
* OS-level mutation failures (disk full, permissions) are modelled by a
  failure oracle `wf : String → Bool`: `os.replace` and `os.remove`
  raise (return `none`) when the oracle marks a path they mutate.
  Raised Python exceptions in general become `none`/error results that the
  callers propagate exactly where the source would let them propagate.
-/

abbrev Content := List Nat

abbrev FS := String → Option Content

/-- Hash collaborator: algorithm name and file content to hex digest. -/
abbrev HashFn := String → Content → String

/-- Source constant `UPDATED = 0`. -/
def UPDATED : Nat := 0

/-- Source constant `NO_REMOTE_CHANGE = 1 << 0`. -/
def NO_REMOTE_CHANGE : Nat := 1

/-- Source constant `LOCAL_CHANGE_REMOTE_CHANGE = 1 << 1`. -/
def LOCAL_CHANGE_REMOTE_CHANGE : Nat := 2

/-- Source constant `NO_LOCAL_NO_REMOTE = 1 << 2`. -/
def NO_LOCAL_NO_REMOTE : Nat := 4

/-- Source constant `HAS_LOCAL_NO_REMOTE = 1 << 3`. -/
def HAS_LOCAL_NO_REMOTE : Nat := 8

/-- Point update of a filesystem (`some c` writes, `none` deletes). -/
def setFS (fs : FS) (p : String) (v : Option Content) : FS :=
  fun q => if q = p then v else fs q

/-- Writing a file, as `open(p, 'wb')` followed by writing `c` does. -/
def fsWrite (fs : FS) (p : String) (c : Content) : FS :=
  setFS fs p (some c)

/-- Source `hash_of_file(filename, algorithm)`: hashes the file's
content; `none` models the `FileNotFoundError` raised by `open` when the
file does not exist. -/
def hash_of_file (hashf : HashFn) (fs : FS) (filename : String)
    (algorithm : String) : Option String :=
  (fs filename).map (hashf algorithm)

/-- Result of opening a URL, see the module comment. -/
inductive NetResult where
  | err
  | stream (content : Content) (interrupt : Option Nat)
deriving DecidableEq

/-- Result of `download`: either a normal return value, or a propagated
exception (one that is not `HTTPError`/`URLError`). -/
inductive DlRes where
  | ok (r : Option String)
  | exn
deriving DecidableEq

/-- Source `download(filename, url)`.  On `HTTPError`/`URLError`
from `urlopen` it returns `None` and no file was opened; on success it
writes the full body and returns `filename`; on a failure in the middle of
the body copy the partial prefix is left on disk and the exception
propagates. -/
def download (net : String → NetResult) (fs : FS) (filename url : String) :
    FS × DlRes :=
  match net url with
  | .err => (fs, .ok none)
  | .stream c none => (fsWrite fs filename c, .ok (some filename))
  | .stream c (some n) => (fsWrite fs filename (c.take n), .exn)

/-- Source `attempt_update(localfile, orig_hash, latest_download,
algorithm)`.  `none` models a propagated exception (a `FileNotFoundError`
raised by `hash_of_file`). -/
def attempt_update (hashf : HashFn) (fs : FS) (localfile : String)
    (orig_hash : Option String) (latest_download : Option String)
    (algorithm : String) : Option (Nat × Option String) :=
  match orig_hash, latest_download with
  | none, none => some (NO_LOCAL_NO_REMOTE, none)
  | _, none => some (HAS_LOCAL_NO_REMOTE, none)
  | _, some dl =>
    match hash_of_file hashf fs dl algorithm with
    | none => none
    | some latest_hash =>
      match orig_hash with
      | none => some (UPDATED, some latest_hash)
      | some oh =>
        if oh = latest_hash then some (NO_REMOTE_CHANGE, none)
        else
          match hash_of_file hashf fs localfile algorithm with
          | none => none
          | some local_hash =>
            if oh = local_hash then some (UPDATED, some latest_hash)
            else some (LOCAL_CHANGE_REMOTE_CHANGE, none)

/-- Model of `os.replace(src, dst)`: atomic rename.  Fails (`none`, modelling a
raised `OSError`) if `src` does not exist or the failure oracle marks a
path it mutates; otherwise `dst` holds `src`'s content and `src` is gone
(renaming a path onto itself leaves the file in place). -/
def os_replace (wf : String → Bool) (fs : FS) (src dst : String) :
    Option FS :=
  match fs src with
  | none => none
  | some c =>
    if wf src || wf dst then none
    else some (fun q => if q = dst then some c else if q = src then none else fs q)

/-- Model of `os.remove(p)`: fails (`none`) if `p` does not exist or the failure
oracle marks it; otherwise removes it. -/
def os_remove (wf : String → Bool) (fs : FS) (p : String) : Option FS :=
  match fs p with
  | none => none
  | some _ => if wf p then none else some (fun q => if q = p then none else fs q)

/-- Source `update(localfile, orig_hash, latest_download, algorithm)`:
the applier: runs `attempt_update`, then on `UPDATED` replaces `localfile` with
`latest_download`, on `NO_REMOTE_CHANGE` removes `latest_download`;
`none` models a propagated exception from `attempt_update`, `os.replace`
or `os.remove` (calling them on a `None` path would also raise). -/
def update (wf : String → Bool) (hashf : HashFn) (fs : FS)
    (localfile : String) (orig_hash : Option String)
    (latest_download : Option String) (algorithm : String) :
    Option (FS × Nat × Option String) :=
  match attempt_update hashf fs localfile orig_hash latest_download algorithm with
  | none => none
  | some (ret, dictupdates) =>
    if ret = UPDATED then
      match latest_download with
      | none => none
      | some dl =>
        (os_replace wf fs dl localfile).map (fun fs2 => (fs2, ret, dictupdates))
    else if ret = NO_REMOTE_CHANGE then
      match latest_download with
      | none => none
      | some dl =>
        (os_remove wf fs dl).map (fun fs2 => (fs2, ret, dictupdates))
    else
      some (fs, ret, dictupdates)

/-- C1: `attempt_update` classifies by the spec's precedence order:
`(None, None)` gives NO_LOCAL_NO_REMOTE with no digest; prior present and
staged absent gives HAS_LOCAL_NO_REMOTE with no digest; prior absent and
staged present gives UPDATED with the staged digest; prior equal to the
staged digest gives NO_REMOTE_CHANGE with no digest; prior unequal to the
staged digest and equal to the local digest gives UPDATED with the staged
digest; otherwise LOCAL_CHANGE_REMOTE_CHANGE with no digest. -/
theorem attempt_update_classification (hashf : HashFn) (fs : FS)
    (localfile : String) (algorithm : String) :
    (attempt_update hashf fs localfile none none algorithm
        = some (NO_LOCAL_NO_REMOTE, none)) ∧
    (∀ d, attempt_update hashf fs localfile (some d) none algorithm
        = some (HAS_LOCAL_NO_REMOTE, none)) ∧
    (∀ dl c, fs dl = some c →
      attempt_update hashf fs localfile none (some dl) algorithm
        = some (UPDATED, some (hashf algorithm c))) ∧
    (∀ d dl c, fs dl = some c → d = hashf algorithm c →
      attempt_update hashf fs localfile (some d) (some dl) algorithm
        = some (NO_REMOTE_CHANGE, none)) ∧
    (∀ d dl c lc, fs dl = some c → fs localfile = some lc →
      d ≠ hashf algorithm c → d = hashf algorithm lc →
      attempt_update hashf fs localfile (some d) (some dl) algorithm
        = some (UPDATED, some (hashf algorithm c))) ∧
    (∀ d dl c lc, fs dl = some c → fs localfile = some lc →
      d ≠ hashf algorithm c → d ≠ hashf algorithm lc →
      attempt_update hashf fs localfile (some d) (some dl) algorithm
        = some (LOCAL_CHANGE_REMOTE_CHANGE, none)) := by
  refine ⟨rfl, fun d => rfl, ?_, ?_, ?_, ?_⟩
  · intro dl c h
    simp [attempt_update, hash_of_file, h]
  · intro d dl c h hd
    simp [attempt_update, hash_of_file, h, hd]
  · intro d dl c lc h hl hne he
    subst he
    simp [attempt_update, hash_of_file, h, hl, hne]
  · intro d dl c lc h hl hne hne2
    simp [attempt_update, hash_of_file, h, hl, hne, hne2]

/-- A concrete hash collaborator used in witnesses. -/
def hashDemo : HashFn := fun _ c => toString c

/-- A concrete filesystem used in witnesses: a staged file `"S"` with
content `[1]` and a local file `"L"` with content `[2]`. -/
def fsDemo : FS :=
  fun q => if q = "S" then some [1] else if q = "L" then some [2] else none

/-- Witness for C1: the diverged branch (prior differs from both staged
and local digests) on a concrete filesystem. -/
theorem attempt_update_classification_witness :
    attempt_update hashDemo fsDemo "L" (some "[9]") (some "S") "sha"
        = some (LOCAL_CHANGE_REMOTE_CHANGE, none) ∧
    attempt_update hashDemo fsDemo "L" (some "[2]") (some "S") "sha"
        = some (UPDATED, some "[1]") := by
  have h := attempt_update_classification hashDemo fsDemo "L" "sha"
  constructor
  · exact h.2.2.2.2.2 "[9]" "S" [1] [2] (by decide) (by decide)
      (by decide) (by decide)
  · have h5 := h.2.2.2.2.1 "[2]" "S" [1] [2] (by decide) (by decide)
      (by decide) (by decide)
    simpa [hashDemo] using h5


/-- Inversion: every successful `attempt_update` call falls into exactly
one of the six source branches, with the stated data. -/
theorem attempt_update_inv (hashf : HashFn) (fs : FS) (localfile : String)
    (oh ld : Option String) (alg : String) (r : Nat) (nh : Option String)
    (h : attempt_update hashf fs localfile oh ld alg = some (r, nh)) :
    (oh = none ∧ ld = none ∧ r = NO_LOCAL_NO_REMOTE ∧ nh = none) ∨
    (∃ d, oh = some d ∧ ld = none ∧ r = HAS_LOCAL_NO_REMOTE ∧ nh = none) ∨
    (∃ dl c, ld = some dl ∧ fs dl = some c ∧
      ((oh = none ∧ r = UPDATED ∧ nh = some (hashf alg c)) ∨
       (oh = some (hashf alg c) ∧ r = NO_REMOTE_CHANGE ∧ nh = none) ∨
       (∃ d lc, oh = some d ∧ fs localfile = some lc ∧ d ≠ hashf alg c ∧
         d = hashf alg lc ∧ r = UPDATED ∧ nh = some (hashf alg c)) ∨
       (∃ d lc, oh = some d ∧ fs localfile = some lc ∧ d ≠ hashf alg c ∧
         d ≠ hashf alg lc ∧ r = LOCAL_CHANGE_REMOTE_CHANGE ∧ nh = none))) := by
  rcases oh with _ | d <;> rcases ld with _ | dl
  · simp only [attempt_update, Option.some.injEq, Prod.mk.injEq] at h
    exact Or.inl ⟨rfl, rfl, h.1.symm, h.2.symm⟩
  · rcases hdl : fs dl with _ | c
    · simp [attempt_update, hash_of_file, hdl] at h
    · simp [attempt_update, hash_of_file, hdl] at h
      exact Or.inr (Or.inr ⟨dl, c, rfl, hdl, Or.inl ⟨rfl, h.1.symm, h.2.symm⟩⟩)
  · simp only [attempt_update, Option.some.injEq, Prod.mk.injEq] at h
    exact Or.inr (Or.inl ⟨d, rfl, rfl, h.1.symm, h.2.symm⟩)
  · rcases hdl : fs dl with _ | c
    · simp [attempt_update, hash_of_file, hdl] at h
    · by_cases hd : d = hashf alg c
      · subst hd
        simp [attempt_update, hash_of_file, hdl] at h
        exact Or.inr (Or.inr ⟨dl, c, rfl, hdl,
          Or.inr (Or.inl ⟨rfl, h.1.symm, h.2.symm⟩)⟩)
      · rcases hlc : fs localfile with _ | lc
        · simp [attempt_update, hash_of_file, hdl, hlc, hd] at h
        · by_cases hl : d = hashf alg lc
          · subst hl
            simp [attempt_update, hash_of_file, hdl, hlc, hd] at h
            exact Or.inr (Or.inr ⟨dl, c, rfl, hdl, Or.inr (Or.inr (Or.inl
              ⟨hashf alg lc, lc, rfl, rfl, hd, rfl, h.1.symm, h.2.symm⟩))⟩)
          · simp [attempt_update, hash_of_file, hdl, hlc, hd, hl] at h
            exact Or.inr (Or.inr ⟨dl, c, rfl, hdl, Or.inr (Or.inr (Or.inr
              ⟨d, lc, rfl, rfl, hd, hl, h.1.symm, h.2.symm⟩))⟩)

/-- A successful `attempt_update` with a staged file implies the staged
file exists on disk. -/
theorem attempt_update_staged_exists (hashf : HashFn) (fs : FS)
    (localfile : String) (oh : Option String) (dl : String) (alg : String)
    (p : Nat × Option String)
    (h : attempt_update hashf fs localfile oh (some dl) alg = some p) :
    ∃ c, fs dl = some c := by
  rcases hdl : fs dl with _ | c
  · rcases oh with _ | d <;> simp [attempt_update, hash_of_file, hdl] at h
  · exact ⟨c, rfl⟩

/-- The new digest is present if and only if the return code is UPDATED,
and it is then the digest of the staged file's content. -/
theorem attempt_update_digest (hashf : HashFn) (fs : FS) (localfile : String)
    (oh ld : Option String) (alg : String) (r : Nat) (nh : Option String)
    (h : attempt_update hashf fs localfile oh ld alg = some (r, nh)) :
    (nh.isSome ↔ r = UPDATED) ∧
    (∀ d, nh = some d →
      ∃ dl c, ld = some dl ∧ fs dl = some c ∧ d = hashf alg c) := by
  rcases attempt_update_inv hashf fs localfile oh ld alg r nh h with
    ⟨_, _, hr, hn⟩ | ⟨d, _, _, hr, hn⟩ | ⟨dl, c, hld, hc, hcase⟩
  · subst hr hn
    exact ⟨by simp [NO_LOCAL_NO_REMOTE, UPDATED], by simp⟩
  · subst hr hn
    exact ⟨by simp [HAS_LOCAL_NO_REMOTE, UPDATED], by simp⟩
  · rcases hcase with ⟨_, hr, hn⟩ | ⟨_, hr, hn⟩ | ⟨d, lc, _, _, _, _, hr, hn⟩ |
      ⟨d, lc, _, _, _, _, hr, hn⟩ <;> subst hr hn
    · exact ⟨by simp, fun d hd => ⟨dl, c, hld, hc, by simpa using hd.symm⟩⟩
    · exact ⟨by simp [NO_REMOTE_CHANGE, UPDATED], by simp⟩
    · exact ⟨by simp, fun d' hd => ⟨dl, c, hld, hc, by simpa using hd.symm⟩⟩
    · exact ⟨by simp [LOCAL_CHANGE_REMOTE_CHANGE, UPDATED], by simp⟩

/-- With a staged file present, only the three reconciliation codes can
come out of `attempt_update`. -/
theorem attempt_update_ret_staged (hashf : HashFn) (fs : FS)
    (localfile : String) (oh : Option String) (dl : String) (alg : String)
    (r : Nat) (nh : Option String)
    (h : attempt_update hashf fs localfile oh (some dl) alg = some (r, nh)) :
    r = UPDATED ∨ r = NO_REMOTE_CHANGE ∨ r = LOCAL_CHANGE_REMOTE_CHANGE := by
  rcases attempt_update_inv hashf fs localfile oh (some dl) alg r nh h with
    ⟨_, hld, _, _⟩ | ⟨_, _, hld, _, _⟩ | ⟨_, _, _, _, hcase⟩
  · exact absurd hld (by simp)
  · exact absurd hld (by simp)
  · rcases hcase with ⟨_, hr, _⟩ | ⟨_, hr, _⟩ | ⟨_, _, _, _, _, _, hr, _⟩ |
      ⟨_, _, _, _, _, _, hr, _⟩
    · exact Or.inl hr
    · exact Or.inr (Or.inl hr)
    · exact Or.inl hr
    · exact Or.inr (Or.inr hr)

/-- A staged return code is never one of the absent-staged codes. -/
theorem attempt_update_ret_staged_ne (hashf : HashFn) (fs : FS)
    (localfile : String) (oh : Option String) (dl : String) (alg : String)
    (r : Nat) (nh : Option String)
    (h : attempt_update hashf fs localfile oh (some dl) alg = some (r, nh)) :
    r ≠ NO_LOCAL_NO_REMOTE ∧ r ≠ HAS_LOCAL_NO_REMOTE := by
  rcases attempt_update_ret_staged hashf fs localfile oh dl alg r nh h with
    hr | hr | hr <;> subst hr <;> exact ⟨by decide, by decide⟩

/-- Inversion for a successful `os.replace`. -/
theorem os_replace_some (wf : String → Bool) (fs : FS) (src dst : String)
    (fs2 : FS) (h : os_replace wf fs src dst = some fs2) :
    ∃ c, fs src = some c ∧ wf src = false ∧ wf dst = false ∧
      fs2 = fun q => if q = dst then some c else if q = src then none else fs q := by
  rcases hc : fs src with _ | c
  · simp [os_replace, hc] at h
  · rcases hw : wf src <;> rcases hw2 : wf dst <;>
      simp [os_replace, hc, hw, hw2] at h
    exact ⟨c, rfl, rfl, rfl, h.symm⟩

/-- Inversion for a successful `os.remove`. -/
theorem os_remove_some (wf : String → Bool) (fs : FS) (p : String)
    (fs2 : FS) (h : os_remove wf fs p = some fs2) :
    ∃ c, fs p = some c ∧ wf p = false ∧
      fs2 = fun q => if q = p then none else fs q := by
  rcases hc : fs p with _ | c
  · simp [os_remove, hc] at h
  · rcases hw : wf p <;> simp [os_remove, hc, hw] at h
    exact ⟨c, rfl, rfl, h.symm⟩

/-- A successful `update` agrees with `attempt_update` and went through
exactly the mutation the return code prescribes. -/
theorem update_inv (wf : String → Bool) (hashf : HashFn) (fs : FS)
    (localfile : String) (oh ld : Option String) (alg : String)
    (fs2 : FS) (r : Nat) (nh : Option String)
    (h : update wf hashf fs localfile oh ld alg = some (fs2, r, nh)) :
    attempt_update hashf fs localfile oh ld alg = some (r, nh) ∧
    ((r = UPDATED → ∃ dl, ld = some dl ∧
        os_replace wf fs dl localfile = some fs2) ∧
     (r = NO_REMOTE_CHANGE → ∃ dl, ld = some dl ∧
        os_remove wf fs dl = some fs2) ∧
     (r ≠ UPDATED → r ≠ NO_REMOTE_CHANGE → fs2 = fs)) := by
  rcases ha : attempt_update hashf fs localfile oh ld alg with _ | ⟨r', nh'⟩
  · simp [update, ha] at h
  · simp only [update, ha] at h
    by_cases hr : r' = UPDATED
    · subst hr
      rcases ld with _ | dl
      · simp at h
      · simp only [if_pos rfl] at h
        rcases hrep : os_replace wf fs dl localfile with _ | fs3
        · rw [hrep] at h
          simp at h
        · rw [hrep] at h
          simp at h
          obtain ⟨h1, h2, h3⟩ := h
          subst h1
          subst h2
          subst h3
          exact ⟨rfl, fun _ => ⟨dl, rfl, hrep⟩, fun hc => absurd hc (by decide),
            fun hc _ => absurd rfl hc⟩
    · by_cases hr2 : r' = NO_REMOTE_CHANGE
      · subst hr2
        rcases ld with _ | dl
        · simp [NO_REMOTE_CHANGE, UPDATED] at h
        · simp only [if_neg hr, if_pos rfl] at h
          rcases hrem : os_remove wf fs dl with _ | fs3
          · rw [hrem] at h
            simp at h
          · rw [hrem] at h
            simp at h
            obtain ⟨h1, h2, h3⟩ := h
            subst h1
            subst h2
            subst h3
            exact ⟨rfl, fun hc => absurd hc (by decide),
              fun _ => ⟨dl, rfl, hrem⟩, fun _ hc => absurd rfl hc⟩
      · simp only [if_neg hr, if_neg hr2] at h
        simp at h
        obtain ⟨h1, h2, h3⟩ := h
        subst h1
        subst h2
        subst h3
        exact ⟨rfl, fun hc => absurd hc hr, fun hc => absurd hc hr2,
          fun _ _ => rfl⟩

/-- C2: `update` returns the same (outcome, digest) pair as
`attempt_update`; on UPDATED the local path is atomically replaced by the
staged content and the staged file is gone; on NO_REMOTE_CHANGE the staged
file is deleted and the local path untouched; on the remaining three
outcomes the filesystem is unchanged.  (The staged path is assumed
distinct from the local path — in the batch they live in different
directories — and the failure oracle clean at the touched paths.) -/
theorem update_effects (wf : String → Bool) (hashf : HashFn) (fs : FS)
    (localfile : String) (oh ld : Option String) (alg : String) (r : Nat)
    (nh : Option String)
    (ha : attempt_update hashf fs localfile oh ld alg = some (r, nh)) :
    (r = UPDATED → ∀ dl, ld = some dl → dl ≠ localfile →
      wf dl = false → wf localfile = false →
      ∃ c fs2, fs dl = some c ∧
        update wf hashf fs localfile oh ld alg = some (fs2, r, nh) ∧
        fs2 localfile = some c ∧ fs2 dl = none ∧
        ∀ q, q ≠ localfile → q ≠ dl → fs2 q = fs q) ∧
    (r = NO_REMOTE_CHANGE → ∀ dl, ld = some dl → dl ≠ localfile →
      wf dl = false →
      ∃ fs2, update wf hashf fs localfile oh ld alg = some (fs2, r, nh) ∧
        fs2 dl = none ∧ fs2 localfile = fs localfile ∧
        ∀ q, q ≠ dl → fs2 q = fs q) ∧
    (r ≠ UPDATED → r ≠ NO_REMOTE_CHANGE →
      update wf hashf fs localfile oh ld alg = some (fs, r, nh)) := by
  refine ⟨?_, ?_, ?_⟩
  · intro hr dl hld hne hwd hwl
    subst hld hr
    obtain ⟨c, hc⟩ := attempt_update_staged_exists hashf fs localfile oh dl alg _ ha
    refine ⟨c, fun q => if q = localfile then some c else
      if q = dl then none else fs q, hc, ?_, ?_, ?_, ?_⟩
    · simp [update, ha, os_replace, hc, hwd, hwl]
    · simp
    · simp [hne]
    · intro q h1 h2
      simp [h1, h2]
  · intro hr dl hld hne hwd
    subst hld hr
    obtain ⟨c, hc⟩ := attempt_update_staged_exists hashf fs localfile oh dl alg _ ha
    have hlf : ¬(localfile = dl) := fun hx => hne hx.symm
    refine ⟨fun q => if q = dl then none else fs q, ?_, ?_, ?_, ?_⟩
    · simp [update, ha, os_remove, hc, hwd, NO_REMOTE_CHANGE, UPDATED]
    · simp
    · simp [hlf]
    · intro q h1
      simp [h1]
  · intro hr1 hr2
    simp [update, ha, hr1, hr2]

/-- Witness for C2: a concrete UPDATED run replaces the local file,
consumes the staged file and leaves a third path alone. -/
theorem update_effects_witness :
    (update (fun _ => false) hashDemo fsDemo "L" (some "[2]") (some "S")
        "sha").map (fun x => (x.1 "L", x.1 "S", x.1 "Z", x.2.1, x.2.2))
      = some (some [1], none, none, UPDATED, some "[1]") := by
  have ha : attempt_update hashDemo fsDemo "L" (some "[2]") (some "S") "sha"
      = some (UPDATED, some "[1]") := by decide
  obtain ⟨c, fs2, hc, hu, h1, h2, hf⟩ :=
    (update_effects (fun _ => false) hashDemo fsDemo "L" (some "[2]")
      (some "S") "sha" UPDATED (some "[1]") ha).1 rfl "S" rfl (by decide)
      rfl rfl
  have hc1 : c = [1] := by
    have hx : fsDemo "S" = some [1] := by decide
    rw [hx] at hc
    exact (Option.some.inj hc).symm
  have hz : fs2 "Z" = none := by
    rw [hf "Z" (by decide) (by decide)]
    decide
  rw [hu]
  subst hc1
  simp [h1, h2, hz]

/-- C8: a digest comes back only with the UPDATED outcome and it matches
the content actually placed at the local path; and if the replace raises
(failure oracle marks the local path) then `update` propagates the error
and returns no pair at all. -/
theorem update_digest_iff_replace (wf : String → Bool) (hashf : HashFn)
    (fs : FS) (localfile : String) (oh ld : Option String) (alg : String) :
    (∀ fs2 r d, update wf hashf fs localfile oh ld alg = some (fs2, r, some d) →
      r = UPDATED ∧ ∃ c, fs2 localfile = some c ∧ hashf alg c = d) ∧
    (∀ r nh, attempt_update hashf fs localfile oh ld alg = some (r, nh) →
      r = UPDATED → wf localfile = true →
      update wf hashf fs localfile oh ld alg = none) := by
  constructor
  · intro fs2 r d hu
    obtain ⟨ha, hrep, -, -⟩ :=
      update_inv wf hashf fs localfile oh ld alg fs2 r (some d) hu
    have hdig := attempt_update_digest hashf fs localfile oh ld alg r
      (some d) ha
    have hr : r = UPDATED := hdig.1.mp (by simp)
    obtain ⟨dl, hld, hosr⟩ := hrep hr
    obtain ⟨c, hc, -, -, hfs2⟩ :=
      os_replace_some wf fs dl localfile fs2 hosr
    refine ⟨hr, c, ?_, ?_⟩
    · rw [hfs2]
      simp
    · obtain ⟨dl2, c2, hld2, hc2, hdd⟩ := hdig.2 d rfl
      rw [hld] at hld2
      have hdl : dl2 = dl := (Option.some.inj hld2).symm
      subst hdl
      rw [hc] at hc2
      have hcc : c2 = c := (Option.some.inj hc2).symm
      subst hcc
      exact hdd.symm
  · intro r nh ha hr hwl
    subst hr
    obtain ⟨dl, hld⟩ : ∃ dl, ld = some dl := by
      rcases attempt_update_inv hashf fs localfile oh ld alg _ _ ha with
        ⟨_, _, h4, _⟩ | ⟨_, _, _, h4, _⟩ | ⟨dl, _, hld, _⟩
      · exact absurd h4 (by decide)
      · exact absurd h4 (by decide)
      · exact ⟨dl, hld⟩
    subst hld
    obtain ⟨c, hc⟩ :=
      attempt_update_staged_exists hashf fs localfile oh dl alg _ ha
    simp [update, ha, os_replace, hc, hwl]

/-- Witness for C8: with the failure oracle marking the local path, a
concrete UPDATED classification makes `update` return `none`; with a clean
oracle the digest recorded for the concrete run matches the on-disk
content. -/
theorem update_digest_iff_replace_witness :
    update (fun p => p == "L") hashDemo fsDemo "L" (some "[2]") (some "S")
        "sha" = none ∧
    hashDemo "sha" [1] = "[1]" := by
  constructor
  · exact (update_digest_iff_replace (fun p => p == "L") hashDemo fsDemo "L"
      (some "[2]") (some "S") "sha").2 UPDATED (some "[1]") (by decide) rfl
      (by decide)
  · have hu : update (fun _ => false) hashDemo fsDemo "L" (some "[2]")
        (some "S") "sha"
        = some (fun q => if q = "L" then some [1] else
            if q = "S" then none else fsDemo q, UPDATED, some "[1]") := rfl
    obtain ⟨-, c, hc, hd⟩ := (update_digest_iff_replace (fun _ => false)
      hashDemo fsDemo "L" (some "[2]") (some "S") "sha").1 _ _ _ hu
    have hcc : ([1] : Content) = c := Option.some.inj hc
    rw [← hcc] at hd
    exact hd

/-- C9: in the diverged branch (prior present, staged present and hashing
to something else) `attempt_update` reads the local file and raises
file-not-found when it is absent; in every other branch the local file is
never read, so its presence or content is irrelevant. -/
theorem attempt_update_local_read (hashf : HashFn) (fs : FS)
    (localfile : String) (alg : String) :
    (∀ d dl c, fs dl = some c → d ≠ hashf alg c → fs localfile = none →
      attempt_update hashf fs localfile (some d) (some dl) alg = none) ∧
    (∀ oh v, attempt_update hashf (setFS fs localfile v) localfile oh none alg
      = attempt_update hashf fs localfile oh none alg) ∧
    (∀ dl v, dl ≠ localfile →
      attempt_update hashf (setFS fs localfile v) localfile none (some dl) alg
      = attempt_update hashf fs localfile none (some dl) alg) ∧
    (∀ d dl c v, dl ≠ localfile → fs dl = some c → d = hashf alg c →
      attempt_update hashf (setFS fs localfile v) localfile (some d) (some dl)
        alg
      = attempt_update hashf fs localfile (some d) (some dl) alg) := by
  refine ⟨?_, ?_, ?_, ?_⟩
  · intro d dl c hc hne hloc
    simp [attempt_update, hash_of_file, hc, hne, hloc]
  · intro oh v
    cases oh <;> rfl
  · intro dl v hne
    simp [attempt_update, hash_of_file, setFS, hne]
  · intro d dl c v hne hc hd
    subst hd
    simp [attempt_update, hash_of_file, setFS, hne, hc]

/-- Witness for C9: concrete diverged branch with the local file absent
raises; writing the local file does not change the other branches. -/
theorem attempt_update_local_read_witness :
    attempt_update hashDemo (fun q => if q = "S" then some [1] else none)
        "L" (some "[9]") (some "S") "sha" = none ∧
    attempt_update hashDemo
        (setFS (fun q => if q = "S" then some [1] else none) "L" (some [7]))
        "L" none (some "S") "sha"
      = attempt_update hashDemo (fun q => if q = "S" then some [1] else none)
        "L" none (some "S") "sha" := by
  constructor
  · exact (attempt_update_local_read hashDemo
      (fun q => if q = "S" then some [1] else none) "L" "sha").1 "[9]" "S" [1]
      (by decide) (by decide) (by decide)
  · exact (attempt_update_local_read hashDemo
      (fun q => if q = "S" then some [1] else none) "L" "sha").2.2.1 "S"
      (some [7]) (by decide)

/-- A network oracle whose response always fails after one byte of the
body was copied. -/
def netInterrupted : String → NetResult := fun _ => .stream [1, 2] (some 1)

/-- The empty filesystem. -/
def emptyFS : FS := fun _ => none

/-- Counterexample for C7: a transport failure in the middle of the body
copy makes `download` propagate the exception and leave a partial file at
the destination, contradicting the claim that every transport-level
failure returns absent with no partial file and no propagated error. -/
theorem download_partial_counterexample :
    (download netInterrupted emptyFS "d" "u").2 = .exn ∧
    (download netInterrupted emptyFS "d" "u").1 "d" = some [1] := by
  constructor
  · rfl
  · rfl

/-- C7 (amended): on a transport failure raised while opening the URL
(`HTTPError`, including any non-success response status, or `URLError`),
`download` returns `None`, leaves the filesystem untouched (hence no
partial file at the destination) and propagates no exception. -/
theorem download_openfail_clean (net : String → NetResult) (fs : FS)
    (filename url : String) (h : net url = .err) :
    download net fs filename url = (fs, .ok none) := by
  simp [download, h]

/-- Witness for the amended C7 on a concrete always-failing network. -/
theorem download_openfail_clean_witness :
    download (fun _ => NetResult.err) emptyFS "d" "u" = (emptyFS, .ok none) :=
  download_openfail_clean (fun _ => NetResult.err) emptyFS "d" "u" rfl

/-- Model of `os.path.join(d, f)` for a directory without a trailing separator and
a relative base name, as the batch uses it. -/
def pjoin (d f : String) : String := d ++ "/" ++ f

/-- Exceptions that can escape `maintain_batch`. -/
inductive BatchErr where
  | valueError (nNameUrl nName2hash : Nat)
  | keyError (name : String)
  | netExn
  | osExn
deriving DecidableEq

/-- Result of processing one batch entry. -/
inductive EntryRes where
  | ok (ret : Nat) (newhash : Option String)
  | err (e : BatchErr)
deriving DecidableEq

/-- One entry of the batch, exactly in the evaluation order the source's
lazy generators force at `list(itertools.starmap(update, args))`: for each
entry first the `name2hash[f]` lookup (from the `name_hash` generator),
then the download into `cachedir/f`, then the `update` call — all before
the next entry is touched. -/
def procEntry (hashf : HashFn) (net : String → NetResult)
    (wf : String → Bool) (basedir cachedir : String)
    (name2hash : List (String × Option String)) (algorithm : String)
    (fs : FS) (fu : String × String) : FS × EntryRes :=
  match List.lookup fu.1 name2hash with
  | none => (fs, .err (.keyError fu.1))
  | some h =>
    match download net fs (pjoin cachedir fu.1) fu.2 with
    | (fs1, .exn) => (fs1, .err .netExn)
    | (fs1, .ok dl) =>
      match update wf hashf fs1 (pjoin basedir fu.1) h dl algorithm with
      | none => (fs1, .err .osExn)
      | some (fs2, ret, nh) => (fs2, .ok ret nh)

/-- Result of the per-entry loop. -/
inductive GoRes where
  | ok (vals : List (Nat × Option String))
  | err (e : BatchErr)
deriving DecidableEq

/-- The per-entry loop of `maintain_batch`, threading the filesystem;
an exception stops the loop and leaves the filesystem as mutated so far,
as propagation does in the source. -/
def batchGo (hashf : HashFn) (net : String → NetResult)
    (wf : String → Bool) (basedir cachedir : String)
    (name2hash : List (String × Option String)) (algorithm : String) :
    FS → List (String × String) → FS × GoRes
  | fs, [] => (fs, .ok [])
  | fs, fu :: rest =>
    match procEntry hashf net wf basedir cachedir name2hash algorithm fs fu with
    | (fs1, .err e) => (fs1, .err e)
    | (fs1, .ok r nh) =>
      match batchGo hashf net wf basedir cachedir name2hash algorithm fs1 rest with
      | (fs2, .err e) => (fs2, .err e)
      | (fs2, .ok vs) => (fs2, .ok ((r, nh) :: vs))

/-- The `name_newhash` collection of the source: pairs each name with the
returned new hash and keeps those that are not `None`; the source then
builds `dict(name_newhash)`, modelled as this association list. -/
def collectUpdates (name_url : List (String × String))
    (vals : List (Nat × Option String)) : List (String × String) :=
  (name_url.zip vals).filterMap (fun x => x.2.2.map (fun h => (x.1.1, h)))

/-- Result of `maintain_batch`: the return-code list and digest-update
mapping, or a propagated exception. -/
inductive BatchOut where
  | ok (retcodes : List Nat) (updates : List (String × String))
  | err (e : BatchErr)
deriving DecidableEq

/-- Source `maintain_batch(basedir, cachedir, name_url, name2hash,
algorithm)`.  The filesystem component of the result reflects all mutations
performed before a normal return or a propagated exception. -/
def maintain_batch (hashf : HashFn) (net : String → NetResult)
    (wf : String → Bool) (basedir cachedir : String)
    (name_url : List (String × String))
    (name2hash : List (String × Option String)) (algorithm : String)
    (fs : FS) : FS × BatchOut :=
  if name_url.length ≠ name2hash.length then
    (fs, .err (.valueError name_url.length name2hash.length))
  else
    match batchGo hashf net wf basedir cachedir name2hash algorithm fs name_url with
    | (fs1, .err e) => (fs1, .err e)
    | (fs1, .ok vals) =>
      (fs1, .ok (vals.map Prod.fst) (collectUpdates name_url vals))

/-- The caller-side `name2hash.update(updates)` (see the source's usage
example and `fmgr.py`): existing keys get the new value in place, unknown
keys are appended. -/
def dictUpdate (m : List (String × Option String))
    (u : List (String × String)) : List (String × Option String) :=
  (m.map fun kv => match List.lookup kv.1 u with
    | some d => (kv.1, some d)
    | none => kv)
  ++ (u.filter (fun kv => (List.lookup kv.1 m).isNone)).map
      (fun kv => (kv.1, some kv.2))

/-- C4: when the entries list and the digest mapping have different
cardinalities, `maintain_batch` raises the precondition error naming both
counts; the result is the same for every network oracle and filesystem
(no fetch is attempted) and the returned filesystem is the input one,
untouched. -/
theorem maintain_batch_length_precondition (hashf : HashFn)
    (net : String → NetResult) (wf : String → Bool) (basedir cachedir : String)
    (name_url : List (String × String))
    (name2hash : List (String × Option String)) (algorithm : String)
    (fs : FS) (h : name_url.length ≠ name2hash.length) :
    maintain_batch hashf net wf basedir cachedir name_url name2hash algorithm
      fs = (fs, .err (.valueError name_url.length name2hash.length)) := by
  simp [maintain_batch, h]

/-- Witness for C4: one entry against an empty digest mapping. -/
theorem maintain_batch_length_precondition_witness :
    maintain_batch hashDemo (fun _ => NetResult.err) (fun _ => false) "b" "c"
      [("a", "u")] [] "sha" emptyFS
    = (emptyFS, .err (.valueError 1 0)) :=
  maintain_batch_length_precondition hashDemo (fun _ => NetResult.err)
    (fun _ => false) "b" "c" [("a", "u")] [] "sha" emptyFS (by decide)

/-- The per-entry loop splits over list append: the suffix runs from the
filesystem the prefix left behind, and a prefix exception short-circuits. -/
theorem batchGo_append (hashf : HashFn) (net : String → NetResult)
    (wf : String → Bool) (basedir cachedir : String)
    (name2hash : List (String × Option String)) (algorithm : String)
    (as bs : List (String × String)) (fs : FS) :
    batchGo hashf net wf basedir cachedir name2hash algorithm fs (as ++ bs)
      = match batchGo hashf net wf basedir cachedir name2hash algorithm fs as with
        | (fs1, .err e) => (fs1, .err e)
        | (fs1, .ok vs) =>
          match batchGo hashf net wf basedir cachedir name2hash algorithm fs1 bs with
          | (fs2, .err e) => (fs2, .err e)
          | (fs2, .ok vs2) => (fs2, .ok (vs ++ vs2)) := by
  induction as generalizing fs with
  | nil =>
    rcases hb : batchGo hashf net wf basedir cachedir name2hash algorithm fs bs
      with ⟨fs2, r2⟩
    cases r2 <;> simp [batchGo, hb]
  | cons e as ih =>
    rcases hp : procEntry hashf net wf basedir cachedir name2hash algorithm fs e
      with ⟨fs1, r1⟩
    cases r1 with
    | err er => simp [batchGo, hp]
    | ok r nh =>
      rcases ha : batchGo hashf net wf basedir cachedir name2hash algorithm
        fs1 as with ⟨fs2, r2⟩
      cases r2 with
      | err er =>
        simp [batchGo, hp, ih fs1, ha]
      | ok vs =>
        rcases hb : batchGo hashf net wf basedir cachedir name2hash algorithm
          fs2 bs with ⟨fs3, r3⟩
        cases r3 <;> simp [batchGo, hp, ih fs1, ha, hb]

/-- C10: with equal cardinalities but a name missing from the digest
mapping, the precondition check passes and `maintain_batch` fails lazily
with the KeyError at the first missing entry, after the earlier entries
were fully processed (their fetches and updates are reflected in the
returned filesystem). -/
theorem maintain_batch_lazy_keyerror (hashf : HashFn)
    (net : String → NetResult) (wf : String → Bool)
    (basedir cachedir : String) (name_url : List (String × String))
    (name2hash : List (String × Option String)) (algorithm : String)
    (fs : FS) (i : Nat) (hi : i < name_url.length)
    (hlen : name_url.length = name2hash.length)
    (vals : List (Nat × Option String))
    (hpre : (batchGo hashf net wf basedir cachedir name2hash algorithm fs
        (name_url.take i)).2 = .ok vals)
    (hmiss : List.lookup name_url[i].1 name2hash = none) :
    maintain_batch hashf net wf basedir cachedir name_url name2hash algorithm
        fs
      = ((batchGo hashf net wf basedir cachedir name2hash algorithm fs
          (name_url.take i)).1,
         .err (.keyError name_url[i].1)) := by
  have hcond : ¬(name_url.length ≠ name2hash.length) := by simp [hlen]
  have hsplit : batchGo hashf net wf basedir cachedir name2hash algorithm fs
      (name_url.take i)
      = ((batchGo hashf net wf basedir cachedir name2hash algorithm fs
          (name_url.take i)).1, GoRes.ok vals) := by
    rw [← hpre]
  rw [maintain_batch, if_neg hcond]
  conv_lhs => rw [← List.take_append_drop i name_url]
  rw [batchGo_append, hsplit]
  rw [List.drop_eq_getElem_cons hi]
  simp [batchGo, procEntry, hmiss]

/-- Network oracle for the C10 witness: one good URL. -/
def netW10 : String → NetResult :=
  fun u => if u = "u" then .stream [1] none else .err

/-- Witness for C10: two entries of which the second name is missing from
the (equal-sized) digest mapping; the first entry is fully processed (its
fetch and update are visible in the filesystem) and then the KeyError is
raised for the second name. -/
theorem maintain_batch_lazy_keyerror_witness :
    (batchGo hashDemo netW10 (fun _ => false) "B" "C"
        [("a", none), ("c", none)] "sha" emptyFS
        ([("a", "u"), ("b", "v")].take 1)).2
      = .ok [(UPDATED, some "[1]")] ∧
    List.lookup ([("a", "u"), ("b", "v")] : List (String × String))[1].1
        ([("a", none), ("c", none)] : List (String × Option String)) = none ∧
    maintain_batch hashDemo netW10 (fun _ => false) "B" "C"
        [("a", "u"), ("b", "v")] [("a", none), ("c", none)] "sha" emptyFS
      = ((batchGo hashDemo netW10 (fun _ => false) "B" "C"
          [("a", none), ("c", none)] "sha" emptyFS
          ([("a", "u"), ("b", "v")].take 1)).1,
         .err (.keyError "b")) ∧
    (maintain_batch hashDemo netW10 (fun _ => false) "B" "C"
        [("a", "u"), ("b", "v")] [("a", none), ("c", none)] "sha"
        emptyFS).1 "B/a" = some [1] := by
  refine ⟨by decide, by decide, ?_, ?_⟩
  · exact maintain_batch_lazy_keyerror hashDemo netW10 (fun _ => false) "B"
      "C" [("a", "u"), ("b", "v")] [("a", none), ("c", none)] "sha" emptyFS 1
      (by decide) (by decide) [(UPDATED, some "[1]")] (by decide) (by decide)
  · have h := maintain_batch_lazy_keyerror hashDemo netW10 (fun _ => false)
      "B" "C" [("a", "u"), ("b", "v")] [("a", none), ("c", none)] "sha"
      emptyFS 1 (by decide) (by decide) [(UPDATED, some "[1]")] (by decide)
      (by decide)
    rw [h]
    decide

/-- Inversion of one successfully processed entry: the digest lookup
succeeded, and `update` ran on the post-download filesystem with the
staged path present exactly when the fetch succeeded. -/
theorem procEntry_ok_inv (hashf : HashFn) (net : String → NetResult)
    (wf : String → Bool) (basedir cachedir : String)
    (name2hash : List (String × Option String)) (algorithm : String)
    (fs : FS) (fu : String × String) (fs' : FS) (r : Nat) (nh : Option String)
    (h : procEntry hashf net wf basedir cachedir name2hash algorithm fs fu
      = (fs', .ok r nh)) :
    ∃ hp, List.lookup fu.1 name2hash = some hp ∧
      ((net fu.2 = .err ∧
        update wf hashf fs (pjoin basedir fu.1) hp none algorithm
          = some (fs', r, nh)) ∨
       (∃ c, net fu.2 = .stream c none ∧
        update wf hashf (fsWrite fs (pjoin cachedir fu.1) c)
          (pjoin basedir fu.1) hp (some (pjoin cachedir fu.1)) algorithm
          = some (fs', r, nh))) := by
  rcases hl : List.lookup fu.1 name2hash with _ | hp
  · simp [procEntry, hl] at h
  · rcases hnet : net fu.2 with _ | ⟨c, itr⟩
    · simp only [procEntry, hl, download, hnet] at h
      rcases hu : update wf hashf fs (pjoin basedir fu.1) hp none algorithm
        with _ | ⟨fs2, r2, nh2⟩
      · rw [hu] at h
        simp at h
      · rw [hu] at h
        simp at h
        obtain ⟨h1, h2, h3⟩ := h
        subst h1
        subst h2
        subst h3
        exact ⟨hp, rfl, Or.inl ⟨rfl, hu⟩⟩
    · rcases itr with _ | n
      · simp only [procEntry, hl, download, hnet] at h
        rcases hu : update wf hashf (fsWrite fs (pjoin cachedir fu.1) c)
          (pjoin basedir fu.1) hp (some (pjoin cachedir fu.1)) algorithm
          with _ | ⟨fs2, r2, nh2⟩
        · rw [hu] at h
          simp at h
        · rw [hu] at h
          simp at h
          obtain ⟨h1, h2, h3⟩ := h
          subst h1
          subst h2
          subst h3
          exact ⟨hp, rfl, Or.inr ⟨c, rfl, hu⟩⟩
      · simp [procEntry, hl, download, hnet] at h

/-- For a successfully processed entry, a new digest is present iff the
return code is UPDATED, and it is then the digest of the fetched body. -/
theorem procEntry_ok_digest (hashf : HashFn) (net : String → NetResult)
    (wf : String → Bool) (basedir cachedir : String)
    (name2hash : List (String × Option String)) (algorithm : String)
    (fs : FS) (fu : String × String) (fs' : FS) (r : Nat) (nh : Option String)
    (h : procEntry hashf net wf basedir cachedir name2hash algorithm fs fu
      = (fs', .ok r nh)) :
    (nh.isSome ↔ r = UPDATED) ∧
    (∀ d, nh = some d →
      ∃ c, net fu.2 = .stream c none ∧ d = hashf algorithm c) := by
  obtain ⟨hp, hl, hcase⟩ := procEntry_ok_inv hashf net wf basedir cachedir
    name2hash algorithm fs fu fs' r nh h
  rcases hcase with ⟨hnet, hu⟩ | ⟨c, hnet, hu⟩
  · obtain ⟨ha, -⟩ := update_inv wf hashf fs (pjoin basedir fu.1) hp none
      algorithm fs' r nh hu
    have hdig := attempt_update_digest hashf fs (pjoin basedir fu.1) hp none
      algorithm r nh ha
    refine ⟨hdig.1, fun d hd => ?_⟩
    obtain ⟨dl, c, hld, -⟩ := hdig.2 d hd
    exact absurd hld (by simp)
  · obtain ⟨ha, -⟩ := update_inv wf hashf (fsWrite fs (pjoin cachedir fu.1) c)
      (pjoin basedir fu.1) hp (some (pjoin cachedir fu.1)) algorithm fs' r nh
      hu
    have hdig := attempt_update_digest hashf
      (fsWrite fs (pjoin cachedir fu.1) c) (pjoin basedir fu.1) hp
      (some (pjoin cachedir fu.1)) algorithm r nh ha
    refine ⟨hdig.1, fun d hd => ?_⟩
    obtain ⟨dl, c2, hld, hc2, hdd⟩ := hdig.2 d hd
    have hdl : dl = pjoin cachedir fu.1 := (Option.some.inj hld).symm
    subst hdl
    have hcc : c2 = c := by
      have hw : fsWrite fs (pjoin cachedir fu.1) c (pjoin cachedir fu.1)
          = some c := by simp [fsWrite, setFS]
      rw [hw] at hc2
      exact (Option.some.inj hc2).symm
    refine ⟨c, hnet, ?_⟩
    rw [← hcc]
    exact hdd

/-- A successful loop produces one value per entry, each coming from a
successful `procEntry` on that entry (in some intermediate filesystem). -/
theorem batchGo_ok_vals (hashf : HashFn) (net : String → NetResult)
    (wf : String → Bool) (basedir cachedir : String)
    (name2hash : List (String × Option String)) (algorithm : String) :
    ∀ (entries : List (String × String)) (fs fs' : FS)
      (vals : List (Nat × Option String)),
      batchGo hashf net wf basedir cachedir name2hash algorithm fs entries
        = (fs', .ok vals) →
      vals.length = entries.length ∧
      ∀ i (hi : i < entries.length) (hv : i < vals.length),
        ∃ gs gs', procEntry hashf net wf basedir cachedir name2hash algorithm
          gs entries[i] = (gs', .ok vals[i].1 vals[i].2)
  | [], fs, fs', vals, h => by
    simp [batchGo] at h
    obtain ⟨-, h2⟩ := h
    subst h2
    exact ⟨rfl, fun i hi hv => absurd hi (by simp)⟩
  | e :: es, fs, fs', vals, h => by
    rcases hp : procEntry hashf net wf basedir cachedir name2hash algorithm
      fs e with ⟨fs1, r1⟩
    cases r1 with
    | err er =>
      simp only [batchGo, hp] at h
      simp at h
    | ok r nh =>
      simp only [batchGo, hp] at h
      rcases hb : batchGo hashf net wf basedir cachedir name2hash algorithm
        fs1 es with ⟨fs2, r2⟩
      cases r2 with
      | err er =>
        rw [hb] at h
        simp at h
      | ok vs =>
        rw [hb] at h
        simp at h
        obtain ⟨h1, h2⟩ := h
        subst h1
        subst h2
        obtain ⟨hlen, hidx⟩ := batchGo_ok_vals hashf net wf basedir cachedir
          name2hash algorithm es fs1 fs2 vs hb
        refine ⟨by simp [hlen], fun i hi hv => ?_⟩
        cases i with
        | zero => exact ⟨fs, fs1, hp⟩
        | succ j =>
          exact hidx j (by simpa using hi) (by simpa using hv)

/-- No entry of `collectUpdates` carries a name outside the batch. -/
theorem collectUpdates_lookup_not_mem (f : String) :
    ∀ (name_url : List (String × String))
      (vals : List (Nat × Option String)),
      f ∉ name_url.map Prod.fst →
      List.lookup f (collectUpdates name_url vals) = none
  | [], vals, _ => by simp [collectUpdates]
  | e :: nu, [], _ => by simp [collectUpdates]
  | e :: nu, v :: vs, hf => by
    have hne : e.1 ≠ f := by
      intro hx
      exact hf (by simp [← hx])
    have hf2 : f ∉ nu.map Prod.fst := fun hx => hf (by simp [hx])
    have hbeq : (f == e.1) = false := beq_eq_false_iff_ne.mpr (Ne.symm hne)
    rcases hv : v.2 with _ | d
    · simpa [collectUpdates, hv] using
        collectUpdates_lookup_not_mem f nu vs hf2
    · simpa [collectUpdates, hv, List.lookup, hbeq] using
        collectUpdates_lookup_not_mem f nu vs hf2

/-- With unique names, looking a batch name up in `collectUpdates` gives
exactly that entry's optional new digest. -/
theorem collectUpdates_lookup :
    ∀ (name_url : List (String × String))
      (vals : List (Nat × Option String)),
      (name_url.map Prod.fst).Nodup →
      ∀ i (hi : i < name_url.length) (hv : i < vals.length),
        List.lookup name_url[i].1 (collectUpdates name_url vals)
          = vals[i].2
  | [], vals, _, i, hi, hv => absurd hi (by simp)
  | e :: nu, [], _, i, hi, hv => absurd hv (by simp)
  | e :: nu, v :: vs, hnd, i, hi, hv => by
    have hdecomp : (∀ x, (e.1, x) ∉ nu) ∧ (nu.map Prod.fst).Nodup := by
      simpa using hnd
    have htail : (nu.map Prod.fst).Nodup := hdecomp.2
    have hhead : e.1 ∉ nu.map Prod.fst := by
      intro hm
      obtain ⟨p, hp, hfst⟩ := List.mem_map.mp hm
      refine hdecomp.1 p.2 ?_
      have hpe : (e.1, p.2) = p := by rw [← hfst]
      rw [hpe]
      exact hp
    cases i with
    | zero =>
      rcases hv2 : v.2 with _ | d
      · simpa [collectUpdates, hv2] using
          collectUpdates_lookup_not_mem e.1 nu vs hhead
      · simp [collectUpdates, hv2, List.lookup]
    | succ j =>
      have hj : j < nu.length := by simpa using hi
      have hjv : j < vs.length := by simpa using hv
      have hmem : nu[j].1 ∈ nu.map Prod.fst := by
        exact List.mem_map_of_mem Prod.fst (by simp)
      have hne : e.1 ≠ nu[j].1 := fun hx => hhead (hx ▸ hmem)
      have hbeq : (nu[j].1 == e.1) = false :=
        beq_eq_false_iff_ne.mpr (Ne.symm hne)
      rcases hv2 : v.2 with _ | d
      · simpa [collectUpdates, hv2] using
          collectUpdates_lookup nu vs htail j hj hjv
      · simpa [collectUpdates, hv2, List.lookup, hbeq] using
          collectUpdates_lookup nu vs htail j hj hjv

/-- Inversion of a normal `maintain_batch` return. -/
theorem maintain_batch_ok_inv (hashf : HashFn) (net : String → NetResult)
    (wf : String → Bool) (basedir cachedir : String)
    (name_url : List (String × String))
    (name2hash : List (String × Option String)) (algorithm : String)
    (fs fs' : FS) (rets : List Nat) (ups : List (String × String))
    (h : maintain_batch hashf net wf basedir cachedir name_url name2hash
      algorithm fs = (fs', .ok rets ups)) :
    name_url.length = name2hash.length ∧
    ∃ vals, batchGo hashf net wf basedir cachedir name2hash algorithm fs
        name_url = (fs', .ok vals) ∧
      rets = vals.map Prod.fst ∧ ups = collectUpdates name_url vals := by
  by_cases hc : name_url.length ≠ name2hash.length
  · simp [maintain_batch, hc] at h
  · have hlen : name_url.length = name2hash.length := not_ne_iff.mp hc
    rcases hb : batchGo hashf net wf basedir cachedir name2hash algorithm fs
      name_url with ⟨fs1, r⟩
    cases r with
    | err e =>
      rw [maintain_batch, if_neg hc, hb] at h
      simp at h
    | ok vals =>
      rw [maintain_batch, if_neg hc, hb] at h
      simp at h
      obtain ⟨h1, h2, h3⟩ := h
      subst h1
      exact ⟨hlen, vals, rfl, h2.symm, h3.symm⟩

/-- C3: on a normal return with unique names, the outcome list has one
code per entry in input order, and the digest-update mapping holds a name
iff that entry's outcome was UPDATED, in which case the value is the
digest of that entry's fetched (staged) content. -/
theorem maintain_batch_alignment (hashf : HashFn) (net : String → NetResult)
    (wf : String → Bool) (basedir cachedir : String)
    (name_url : List (String × String))
    (name2hash : List (String × Option String)) (algorithm : String)
    (fs fs' : FS) (rets : List Nat) (ups : List (String × String))
    (h : maintain_batch hashf net wf basedir cachedir name_url name2hash
      algorithm fs = (fs', .ok rets ups))
    (hnd : (name_url.map Prod.fst).Nodup) :
    rets.length = name_url.length ∧
    ∀ i (hi : i < name_url.length),
      ((List.lookup name_url[i].1 ups).isSome
        ↔ rets.getD i NO_LOCAL_NO_REMOTE = UPDATED) ∧
      (∀ d, List.lookup name_url[i].1 ups = some d →
        ∃ c, net name_url[i].2 = .stream c none ∧ d = hashf algorithm c) := by
  obtain ⟨hlen, vals, hb, hrets, hups⟩ := maintain_batch_ok_inv hashf net wf
    basedir cachedir name_url name2hash algorithm fs fs' rets ups h
  subst hrets
  subst hups
  obtain ⟨hvlen, hidx⟩ := batchGo_ok_vals hashf net wf basedir cachedir
    name2hash algorithm name_url fs fs' vals hb
  refine ⟨by simp [hvlen], fun i hi => ?_⟩
  have hv : i < vals.length := by rw [hvlen]; exact hi
  have hlook := collectUpdates_lookup name_url vals hnd i hi hv
  obtain ⟨gs, gs', hp⟩ := hidx i hi hv
  have hdig := procEntry_ok_digest hashf net wf basedir cachedir name2hash
    algorithm gs name_url[i] gs' vals[i].1 vals[i].2 hp
  have hget : (vals.map Prod.fst).getD i NO_LOCAL_NO_REMOTE = vals[i].1 := by
    rw [List.getD_eq_getElem (vals.map Prod.fst) NO_LOCAL_NO_REMOTE
      (by simpa using hv)]
    simp
  constructor
  · rw [hlook, hget]
    exact hdig.1
  · intro d hd
    rw [hlook] at hd
    exact hdig.2 d hd

/-- Witness for C3 on a concrete two-entry batch: entry "a" is UPDATED
(its name is in the updates, with the staged digest), entry "c" has no
fetch and is HAS_LOCAL_NO_REMOTE (its name is absent). -/
theorem maintain_batch_alignment_witness :
    ([UPDATED, HAS_LOCAL_NO_REMOTE].length
      = ([("a", "u"), ("c", "w")] : List (String × String)).length) ∧
    ((List.lookup "a" ([("a", "[1]")] : List (String × String))).isSome
      ↔ [UPDATED, HAS_LOCAL_NO_REMOTE].getD 0 NO_LOCAL_NO_REMOTE = UPDATED) ∧
    ((List.lookup "c" ([("a", "[1]")] : List (String × String))).isSome
      ↔ [UPDATED, HAS_LOCAL_NO_REMOTE].getD 1 NO_LOCAL_NO_REMOTE
          = UPDATED) := by
  have h : maintain_batch hashDemo netW10 (fun _ => false) "B" "C"
      [("a", "u"), ("c", "w")] [("a", none), ("c", some "[9]")] "sha"
      (fun q => if q = "B/c" then some [9] else none)
      = ((maintain_batch hashDemo netW10 (fun _ => false) "B" "C"
          [("a", "u"), ("c", "w")] [("a", none), ("c", some "[9]")] "sha"
          (fun q => if q = "B/c" then some [9] else none)).1,
         .ok [UPDATED, HAS_LOCAL_NO_REMOTE] [("a", "[1]")]) :=
    Prod.ext rfl (by decide)
  have halign := maintain_batch_alignment hashDemo netW10 (fun _ => false)
    "B" "C" [("a", "u"), ("c", "w")] [("a", none), ("c", some "[9]")] "sha"
    (fun q => if q = "B/c" then some [9] else none) _ _ _ h (by decide)
  exact ⟨halign.1, (halign.2 0 (by decide)).1, (halign.2 1 (by decide)).1⟩

/-- Looking up a key found in the left part of an appended association
list. -/
theorem lookup_append_left {α : Type} (f : String) (v : α) :
    ∀ (l1 l2 : List (String × α)), List.lookup f l1 = some v →
      List.lookup f (l1 ++ l2) = some v
  | [], _, h => by simp [List.lookup] at h
  | kv :: l1, l2, h => by
    rcases hbeq : f == kv.1 with _ | _
    · simp only [List.lookup, hbeq] at h
      simpa [List.lookup, hbeq] using lookup_append_left f v l1 l2 h
    · simp only [List.lookup, hbeq] at h
      simpa [List.lookup, hbeq] using h

/-- Looking a present key up in the value-rewriting map underlying
`dictUpdate`. -/
theorem lookup_dictUpdate_map (u : List (String × String)) :
    ∀ (m : List (String × Option String)) (f : String) (hp : Option String),
      List.lookup f m = some hp →
      List.lookup f (m.map fun kv => match List.lookup kv.1 u with
        | some d => (kv.1, some d)
        | none => kv)
      = some (match List.lookup f u with
        | some d => some d
        | none => hp)
  | [], f, hp, h => by simp [List.lookup] at h
  | kv :: m, f, hp, h => by
    rcases hbeq : f == kv.1 with _ | _
    · simp only [List.lookup, hbeq] at h
      rcases hu : List.lookup kv.1 u with _ | d <;>
        simpa [List.lookup, hu, hbeq] using lookup_dictUpdate_map u m f hp h
    · have hf : f = kv.1 := by
        exact beq_iff_eq.mp hbeq
      subst hf
      simp only [List.lookup, hbeq] at h
      have hhp : hp = kv.2 := (Option.some.inj h).symm
      subst hhp
      rcases hu : List.lookup kv.1 u with _ | d <;>
        simp [List.lookup, hu]

/-- Looking a key of the original mapping up after the caller-side merge:
the updates override, other keys keep their value. -/
theorem dictUpdate_lookup (m : List (String × Option String))
    (u : List (String × String)) (f : String) (hp : Option String)
    (h : List.lookup f m = some hp) :
    List.lookup f (dictUpdate m u)
      = some (match List.lookup f u with
        | some d => some d
        | none => hp) := by
  exact lookup_append_left f _ _ _ (lookup_dictUpdate_map u m f hp h)

/-- Run-one inversion for a reconciled entry: an outcome of UPDATED or
NO_REMOTE_CHANGE implies the fetch succeeded, and afterwards either the
update mapping carries the staged digest (UPDATED) or the prior digest
already was the staged digest (NO_REMOTE_CHANGE). -/
theorem procEntry_ok_reconciled (hashf : HashFn) (net : String → NetResult)
    (wf : String → Bool) (basedir cachedir : String)
    (name2hash : List (String × Option String)) (algorithm : String)
    (fs : FS) (fu : String × String) (fs' : FS) (r : Nat) (nh : Option String)
    (h : procEntry hashf net wf basedir cachedir name2hash algorithm fs fu
      = (fs', .ok r nh))
    (hr : r = UPDATED ∨ r = NO_REMOTE_CHANGE) :
    ∃ c, net fu.2 = .stream c none ∧
      ((r = UPDATED ∧ nh = some (hashf algorithm c)) ∨
       (r = NO_REMOTE_CHANGE ∧ nh = none ∧
        List.lookup fu.1 name2hash = some (some (hashf algorithm c)))) := by
  obtain ⟨hp, hl, hcase⟩ := procEntry_ok_inv hashf net wf basedir cachedir
    name2hash algorithm fs fu fs' r nh h
  rcases hcase with ⟨hnet, hu⟩ | ⟨c, hnet, hu⟩
  · obtain ⟨ha, -⟩ := update_inv wf hashf fs (pjoin basedir fu.1) hp none
      algorithm fs' r nh hu
    rcases attempt_update_inv hashf fs (pjoin basedir fu.1) hp none algorithm
      r nh ha with ⟨-, -, hr4, -⟩ | ⟨d, -, -, hr8, -⟩ | ⟨dl, c2, hld, -⟩
    · rcases hr with h0 | h0 <;> (rw [hr4] at h0; exact absurd h0 (by decide))
    · rcases hr with h0 | h0 <;> (rw [hr8] at h0; exact absurd h0 (by decide))
    · exact absurd hld (by simp)
  · obtain ⟨ha, -⟩ := update_inv wf hashf
      (fsWrite fs (pjoin cachedir fu.1) c) (pjoin basedir fu.1) hp
      (some (pjoin cachedir fu.1)) algorithm fs' r nh hu
    rcases attempt_update_inv hashf (fsWrite fs (pjoin cachedir fu.1) c)
      (pjoin basedir fu.1) hp (some (pjoin cachedir fu.1)) algorithm r nh ha
      with ⟨-, hld, -, -⟩ | ⟨d, -, hld, -, -⟩ | ⟨dl, c2, hld, hc2, hcase2⟩
    · exact absurd hld (by simp)
    · exact absurd hld (by simp)
    · have hdl : dl = pjoin cachedir fu.1 := (Option.some.inj hld).symm
      subst hdl
      have hcc : c2 = c := by
        have hw : fsWrite fs (pjoin cachedir fu.1) c (pjoin cachedir fu.1)
            = some c := by simp [fsWrite, setFS]
        rw [hw] at hc2
        exact (Option.some.inj hc2).symm
      rw [hcc] at hcase2
      rcases hcase2 with ⟨-, hru, hnh⟩ | ⟨hoh, hrn, hnh⟩ |
        ⟨d, lc, -, -, -, -, hru, hnh⟩ | ⟨d, lc, -, -, -, -, hrl, hnh⟩
      · exact ⟨c, hnet, Or.inl ⟨hru, hnh⟩⟩
      · refine ⟨c, hnet, Or.inr ⟨hrn, hnh, ?_⟩⟩
        rw [hl, hoh]
      · exact ⟨c, hnet, Or.inl ⟨hru, hnh⟩⟩
      · rcases hr with h0 | h0 <;> (rw [hrl] at h0; exact absurd h0 (by decide))

/-- Run-two step: when the stored digest for an entry is exactly the
digest of the content the network still serves, a successfully processed
entry comes out NO_REMOTE_CHANGE — whatever the local file looks like. -/
theorem procEntry_prior_matches (hashf : HashFn) (net : String → NetResult)
    (wf : String → Bool) (basedir cachedir : String)
    (name2hash : List (String × Option String)) (algorithm : String)
    (fs : FS) (fu : String × String) (fs' : FS) (r : Nat) (nh : Option String)
    (c : Content)
    (hlook : List.lookup fu.1 name2hash = some (some (hashf algorithm c)))
    (hnet : net fu.2 = .stream c none)
    (h : procEntry hashf net wf basedir cachedir name2hash algorithm fs fu
      = (fs', .ok r nh)) :
    r = NO_REMOTE_CHANGE := by
  have hatt : attempt_update hashf (fsWrite fs (pjoin cachedir fu.1) c)
      (pjoin basedir fu.1) (some (hashf algorithm c))
      (some (pjoin cachedir fu.1)) algorithm
      = some (NO_REMOTE_CHANGE, none) := by
    simp [attempt_update, hash_of_file, fsWrite, setFS]
  simp only [procEntry, hlook, download, hnet] at h
  rcases hu : update wf hashf (fsWrite fs (pjoin cachedir fu.1) c)
    (pjoin basedir fu.1) (some (hashf algorithm c))
    (some (pjoin cachedir fu.1)) algorithm with _ | ⟨fs3, r3, nh3⟩
  · rw [hu] at h
    simp at h
  · rw [hu] at h
    simp at h
    obtain ⟨h1, h2, h3⟩ := h
    obtain ⟨ha2, -⟩ := update_inv wf hashf
      (fsWrite fs (pjoin cachedir fu.1) c) (pjoin basedir fu.1)
      (some (hashf algorithm c)) (some (pjoin cachedir fu.1)) algorithm fs3
      r3 nh3 hu
    rw [hatt] at ha2
    have hpair : (NO_REMOTE_CHANGE, (none : Option String)) = (r3, nh3) :=
      Option.some.inj ha2
    have hr3 : r3 = NO_REMOTE_CHANGE := (congrArg Prod.fst hpair).symm
    rw [← h2]
    exact hr3

/-- C5 (amended): entrywise batch idempotence for reconciled entries.  If
the first run returns normally and an entry's outcome is UPDATED or
NO_REMOTE_CHANGE, then a second normal run — started from the filesystem
the first run left, with the first run's digest updates merged into the
prior mapping and the network unchanged — classifies that entry
NO_REMOTE_CHANGE.  (Entries whose fetch failed, and entries classified
LOCAL_CHANGE_REMOTE_CHANGE, instead repeat their first outcome.) -/
theorem maintain_batch_idempotent_entry (hashf : HashFn)
    (net : String → NetResult) (wf : String → Bool)
    (basedir cachedir : String) (name_url : List (String × String))
    (name2hash : List (String × Option String)) (algorithm : String)
    (fs fs1 fs2 : FS) (rets1 rets2 : List Nat)
    (ups1 ups2 : List (String × String))
    (hnd : (name_url.map Prod.fst).Nodup)
    (h1 : maintain_batch hashf net wf basedir cachedir name_url name2hash
      algorithm fs = (fs1, .ok rets1 ups1))
    (h2 : maintain_batch hashf net wf basedir cachedir name_url
      (dictUpdate name2hash ups1) algorithm fs1 = (fs2, .ok rets2 ups2))
    (i : Nat) (hi : i < name_url.length)
    (hr : rets1.getD i LOCAL_CHANGE_REMOTE_CHANGE = UPDATED ∨
      rets1.getD i LOCAL_CHANGE_REMOTE_CHANGE = NO_REMOTE_CHANGE) :
    rets2.getD i LOCAL_CHANGE_REMOTE_CHANGE = NO_REMOTE_CHANGE := by
  obtain ⟨hlen1, vals1, hb1, hrets1, hups1⟩ := maintain_batch_ok_inv hashf
    net wf basedir cachedir name_url name2hash algorithm fs fs1 rets1 ups1 h1
  subst hrets1
  subst hups1
  obtain ⟨hlen2, vals2, hb2, hrets2, hups2⟩ := maintain_batch_ok_inv hashf
    net wf basedir cachedir name_url (dictUpdate name2hash
      (collectUpdates name_url vals1)) algorithm fs1 fs2 rets2 ups2 h2
  subst hrets2
  subst hups2
  obtain ⟨hvlen1, hidx1⟩ := batchGo_ok_vals hashf net wf basedir cachedir
    name2hash algorithm name_url fs fs1 vals1 hb1
  obtain ⟨hvlen2, hidx2⟩ := batchGo_ok_vals hashf net wf basedir cachedir
    (dictUpdate name2hash (collectUpdates name_url vals1)) algorithm
    name_url fs1 fs2 vals2 hb2
  have hv1 : i < vals1.length := by rw [hvlen1]; exact hi
  have hv2 : i < vals2.length := by rw [hvlen2]; exact hi
  have hget1 : (vals1.map Prod.fst).getD i LOCAL_CHANGE_REMOTE_CHANGE
      = vals1[i].1 := by
    rw [List.getD_eq_getElem (vals1.map Prod.fst) LOCAL_CHANGE_REMOTE_CHANGE
      (by simpa using hv1)]
    simp
  have hget2 : (vals2.map Prod.fst).getD i LOCAL_CHANGE_REMOTE_CHANGE
      = vals2[i].1 := by
    rw [List.getD_eq_getElem (vals2.map Prod.fst) LOCAL_CHANGE_REMOTE_CHANGE
      (by simpa using hv2)]
    simp
  rw [hget1] at hr
  obtain ⟨gs, gs', hp1⟩ := hidx1 i hi hv1
  obtain ⟨c, hnet, hcase⟩ := procEntry_ok_reconciled hashf net wf basedir
    cachedir name2hash algorithm gs name_url[i] gs' vals1[i].1 vals1[i].2
    hp1 hr
  obtain ⟨hp, hlookup, -⟩ := procEntry_ok_inv hashf net wf basedir cachedir
    name2hash algorithm gs name_url[i] gs' vals1[i].1 vals1[i].2 hp1
  have hupslook : List.lookup name_url[i].1 (collectUpdates name_url vals1)
      = vals1[i].2 := collectUpdates_lookup name_url vals1 hnd i hi hv1
  have hmerged : List.lookup name_url[i].1
      (dictUpdate name2hash (collectUpdates name_url vals1))
      = some (some (hashf algorithm c)) := by
    rw [dictUpdate_lookup name2hash (collectUpdates name_url vals1)
      name_url[i].1 hp hlookup]
    rcases hcase with ⟨-, hnh⟩ | ⟨-, hnh, hplook⟩
    · rw [hupslook, hnh]
    · rw [hupslook, hnh]
      rw [hlookup] at hplook
      rw [Option.some.inj hplook]
  obtain ⟨ts, ts', hp2⟩ := hidx2 i hi hv2
  rw [hget2]
  exact procEntry_prior_matches hashf net wf basedir cachedir
    (dictUpdate name2hash (collectUpdates name_url vals1)) algorithm ts
    name_url[i] ts' vals2[i].1 vals2[i].2 c hmerged hnet hp2

/-- Network oracle for the C5 counterexample and witness: one good URL,
everything else unreachable. -/
def netC5 : String → NetResult :=
  fun u => if u = "u" then .stream [1] none else .err

/-- Starting filesystem for the C5 counterexample: the local copy of
entry "a" was edited (content `[3]`). -/
def fsC5 : FS := fun q => if q = "B/a" then some [3] else none

/-- Counterexample for C5: a batch whose first run yields
LOCAL_CHANGE_REMOTE_CHANGE for entry "a" (local and remote both diverged
from the prior digest) and NO_LOCAL_NO_REMOTE for entry "b" (fetch
fails), with no digest updates.  Nothing changes between the runs, yet
the second run repeats those outcomes — neither is NO_REMOTE_CHANGE —
refuting the claim that a second run yields NO_REMOTE_CHANGE for every
entry. -/
theorem maintain_batch_idempotent_counterexample :
    (maintain_batch hashDemo netC5 (fun _ => false) "B" "C"
        [("a", "u"), ("b", "v")] [("a", some "[9]"), ("b", none)] "sha"
        fsC5).2
      = .ok [LOCAL_CHANGE_REMOTE_CHANGE, NO_LOCAL_NO_REMOTE] [] ∧
    (maintain_batch hashDemo netC5 (fun _ => false) "B" "C"
        [("a", "u"), ("b", "v")]
        (dictUpdate [("a", some "[9]"), ("b", none)] [])
        "sha"
        (maintain_batch hashDemo netC5 (fun _ => false) "B" "C"
          [("a", "u"), ("b", "v")] [("a", some "[9]"), ("b", none)] "sha"
          fsC5).1).2
      = .ok [LOCAL_CHANGE_REMOTE_CHANGE, NO_LOCAL_NO_REMOTE] [] ∧
    LOCAL_CHANGE_REMOTE_CHANGE ≠ NO_REMOTE_CHANGE ∧
    NO_LOCAL_NO_REMOTE ≠ NO_REMOTE_CHANGE := by
  exact ⟨by decide, by decide, by decide, by decide⟩

/-- Witness for the amended C5: a one-entry batch, UPDATED on the first
run, NO_REMOTE_CHANGE on the second. -/
theorem maintain_batch_idempotent_entry_witness :
    (maintain_batch hashDemo netC5 (fun _ => false) "B" "C" [("a", "u")]
        [("a", none)] "sha" emptyFS).2 = .ok [UPDATED] [("a", "[1]")] ∧
    (maintain_batch hashDemo netC5 (fun _ => false) "B" "C" [("a", "u")]
        (dictUpdate [("a", none)] [("a", "[1]")]) "sha"
        (maintain_batch hashDemo netC5 (fun _ => false) "B" "C" [("a", "u")]
          [("a", none)] "sha" emptyFS).1).2
      = .ok [NO_REMOTE_CHANGE] [] ∧
    [NO_REMOTE_CHANGE].getD 0 LOCAL_CHANGE_REMOTE_CHANGE
      = NO_REMOTE_CHANGE := by
  refine ⟨by decide, by decide, ?_⟩
  have h1 : maintain_batch hashDemo netC5 (fun _ => false) "B" "C"
      [("a", "u")] [("a", none)] "sha" emptyFS
      = ((maintain_batch hashDemo netC5 (fun _ => false) "B" "C" [("a", "u")]
          [("a", none)] "sha" emptyFS).1, .ok [UPDATED] [("a", "[1]")]) :=
    Prod.ext rfl (by decide)
  have h2 : maintain_batch hashDemo netC5 (fun _ => false) "B" "C"
      [("a", "u")] (dictUpdate [("a", none)] [("a", "[1]")]) "sha"
      (maintain_batch hashDemo netC5 (fun _ => false) "B" "C" [("a", "u")]
        [("a", none)] "sha" emptyFS).1
      = ((maintain_batch hashDemo netC5 (fun _ => false) "B" "C" [("a", "u")]
          (dictUpdate [("a", none)] [("a", "[1]")]) "sha"
          (maintain_batch hashDemo netC5 (fun _ => false) "B" "C"
            [("a", "u")] [("a", none)] "sha" emptyFS).1).1,
         .ok [NO_REMOTE_CHANGE] []) :=
    Prod.ext rfl (by decide)
  exact maintain_batch_idempotent_entry hashDemo netC5 (fun _ => false) "B"
    "C" [("a", "u")] [("a", none)] "sha" emptyFS _ _ [UPDATED]
    [NO_REMOTE_CHANGE] [("a", "[1]")] [] (by decide) h1 h2 0 (by decide)
    (Or.inl (by decide))

/-- Joining under a fixed directory is injective in the base name. -/
theorem pjoin_right_inj (d f g : String) (h : pjoin d f = pjoin d g) :
    f = g := by
  have hd := congrArg String.data h
  simp only [pjoin, String.data_append, List.append_assoc] at hd
  have h2 := List.append_cancel_left (List.append_cancel_left hd)
  cases f
  cases g
  exact congrArg String.mk h2

/-- Processing one entry only touches that entry's cache path and local
path. -/
theorem procEntry_frame (hashf : HashFn) (net : String → NetResult)
    (wf : String → Bool) (basedir cachedir : String)
    (name2hash : List (String × Option String)) (algorithm : String)
    (fs : FS) (fu : String × String) (fs' : FS) (res : EntryRes)
    (h : procEntry hashf net wf basedir cachedir name2hash algorithm fs fu
      = (fs', res))
    (p : String) (h1 : p ≠ pjoin cachedir fu.1) (h2 : p ≠ pjoin basedir fu.1) :
    fs' p = fs p := by
  rcases hl : List.lookup fu.1 name2hash with _ | hp
  · simp only [procEntry, hl] at h
    have hfs : fs = fs' := congrArg Prod.fst h
    rw [← hfs]
  · rcases hnet : net fu.2 with _ | ⟨c, itr⟩
    · simp only [procEntry, hl, download, hnet] at h
      rcases hu : update wf hashf fs (pjoin basedir fu.1) hp none algorithm
        with _ | ⟨fs2, r2, nh2⟩
      · rw [hu] at h
        have hfs : fs = fs' := congrArg Prod.fst h
        rw [← hfs]
      · rw [hu] at h
        have hfs : fs2 = fs' := congrArg Prod.fst h
        obtain ⟨-, hrepl, hrem, hid⟩ := update_inv wf hashf fs
          (pjoin basedir fu.1) hp none algorithm fs2 r2 nh2 hu
        have hfs2 : fs2 = fs := by
          refine hid ?_ ?_
          · intro hru
            obtain ⟨dl, hld, -⟩ := hrepl hru
            exact absurd hld (by simp)
          · intro hrn
            obtain ⟨dl, hld, -⟩ := hrem hrn
            exact absurd hld (by simp)
        rw [← hfs, hfs2]
    · rcases itr with _ | n
      · simp only [procEntry, hl, download, hnet] at h
        rcases hu : update wf hashf (fsWrite fs (pjoin cachedir fu.1) c)
          (pjoin basedir fu.1) hp (some (pjoin cachedir fu.1)) algorithm
          with _ | ⟨fs2, r2, nh2⟩
        · rw [hu] at h
          have hfs : fsWrite fs (pjoin cachedir fu.1) c = fs' :=
            congrArg Prod.fst h
          rw [← hfs]
          simp [fsWrite, setFS, h1]
        · rw [hu] at h
          have hfs : fs2 = fs' := congrArg Prod.fst h
          obtain ⟨-, hrepl, hrem, hid⟩ := update_inv wf hashf
            (fsWrite fs (pjoin cachedir fu.1) c) (pjoin basedir fu.1) hp
            (some (pjoin cachedir fu.1)) algorithm fs2 r2 nh2 hu
          by_cases hru : r2 = UPDATED
          · obtain ⟨dl, hld, hosr⟩ := hrepl hru
            have hdl : dl = pjoin cachedir fu.1 := (Option.some.inj hld).symm
            subst hdl
            obtain ⟨cc, -, -, -, hfs2⟩ := os_replace_some wf
              (fsWrite fs (pjoin cachedir fu.1) c) (pjoin cachedir fu.1)
              (pjoin basedir fu.1) fs2 hosr
            rw [← hfs, hfs2]
            simp [fsWrite, setFS, h1, h2]
          · by_cases hrn : r2 = NO_REMOTE_CHANGE
            · obtain ⟨dl, hld, hosrm⟩ := hrem hrn
              have hdl : dl = pjoin cachedir fu.1 :=
                (Option.some.inj hld).symm
              subst hdl
              obtain ⟨cc, -, -, hfs2⟩ := os_remove_some wf
                (fsWrite fs (pjoin cachedir fu.1) c) (pjoin cachedir fu.1)
                fs2 hosrm
              rw [← hfs, hfs2]
              simp [fsWrite, setFS, h1]
            · have hfs2 := hid hru hrn
              rw [← hfs, hfs2]
              simp [fsWrite, setFS, h1]
      · simp only [procEntry, hl, download, hnet] at h
        have hfs : fsWrite fs (pjoin cachedir fu.1) (c.take n) = fs' :=
          congrArg Prod.fst h
        rw [← hfs]
        simp [fsWrite, setFS, h1]

/-- The batch loop only touches the cache and local paths of its
entries. -/
theorem batchGo_frame (hashf : HashFn) (net : String → NetResult)
    (wf : String → Bool) (basedir cachedir : String)
    (name2hash : List (String × Option String)) (algorithm : String) :
    ∀ (entries : List (String × String)) (fs fs' : FS) (res : GoRes),
      batchGo hashf net wf basedir cachedir name2hash algorithm fs entries
        = (fs', res) →
      ∀ p, (∀ fu ∈ entries, p ≠ pjoin cachedir fu.1 ∧ p ≠ pjoin basedir fu.1) →
      fs' p = fs p
  | [], fs, fs', res, h, p, hp => by
    have hfs : fs = fs' := congrArg Prod.fst h
    rw [← hfs]
  | fu :: es, fs, fs', res, h, p, hp => by
    rcases hpe : procEntry hashf net wf basedir cachedir name2hash algorithm
      fs fu with ⟨fs1, r1⟩
    have hp0 := hp fu (by simp)
    have hfr1 : fs1 p = fs p := procEntry_frame hashf net wf basedir cachedir
      name2hash algorithm fs fu fs1 r1 hpe p hp0.1 hp0.2
    cases r1 with
    | err e =>
      simp only [batchGo, hpe] at h
      have hfs : fs1 = fs' := congrArg Prod.fst h
      rw [← hfs, hfr1]
    | ok r nh =>
      simp only [batchGo, hpe] at h
      rcases hb : batchGo hashf net wf basedir cachedir name2hash algorithm
        fs1 es with ⟨fs2, r2⟩
      have hfr2 : fs2 p = fs1 p := batchGo_frame hashf net wf basedir
        cachedir name2hash algorithm es fs1 fs2 r2 hb p
        (fun e he => hp e (by simp [he]))
      cases r2 with
      | err e =>
        rw [hb] at h
        simp at h
        rw [← h.1, hfr2, hfr1]
      | ok vs =>
        rw [hb] at h
        simp at h
        rw [← h.1, hfr2, hfr1]

/-- After one successfully processed entry whose fetch succeeded, the
entry's staged file is gone exactly when the outcome is not
LOCAL_CHANGE_REMOTE_CHANGE (on which it stays in place). -/
theorem procEntry_cache_post (hashf : HashFn) (net : String → NetResult)
    (wf : String → Bool) (basedir cachedir : String)
    (name2hash : List (String × Option String)) (algorithm : String)
    (fs : FS) (fu : String × String) (fs' : FS) (r : Nat) (nh : Option String)
    (c : Content)
    (h : procEntry hashf net wf basedir cachedir name2hash algorithm fs fu
      = (fs', .ok r nh))
    (hnet : net fu.2 = .stream c none)
    (hsep : pjoin basedir fu.1 ≠ pjoin cachedir fu.1) :
    (fs' (pjoin cachedir fu.1) = none ↔ r ≠ LOCAL_CHANGE_REMOTE_CHANGE) := by
  have hsep2 : pjoin cachedir fu.1 ≠ pjoin basedir fu.1 := Ne.symm hsep
  rcases hl : List.lookup fu.1 name2hash with _ | hp
  · simp [procEntry, hl] at h
  · simp only [procEntry, hl, download, hnet] at h
    rcases hu : update wf hashf (fsWrite fs (pjoin cachedir fu.1) c)
      (pjoin basedir fu.1) hp (some (pjoin cachedir fu.1)) algorithm
      with _ | ⟨fs2, r2, nh2⟩
    · rw [hu] at h
      simp at h
    · rw [hu] at h
      simp at h
      obtain ⟨h1, h2, -⟩ := h
      obtain ⟨ha, hrepl, hrem, hid⟩ := update_inv wf hashf
        (fsWrite fs (pjoin cachedir fu.1) c) (pjoin basedir fu.1) hp
        (some (pjoin cachedir fu.1)) algorithm fs2 r2 nh2 hu
      rw [← h1, ← h2]
      rcases attempt_update_ret_staged hashf
        (fsWrite fs (pjoin cachedir fu.1) c) (pjoin basedir fu.1) hp
        (pjoin cachedir fu.1) algorithm r2 nh2 ha with hru | hrn | hrl
      · obtain ⟨dl, hld, hosr⟩ := hrepl hru
        have hdl : dl = pjoin cachedir fu.1 := (Option.some.inj hld).symm
        subst hdl
        obtain ⟨cc, -, -, -, hfs2⟩ := os_replace_some wf
          (fsWrite fs (pjoin cachedir fu.1) c) (pjoin cachedir fu.1)
          (pjoin basedir fu.1) fs2 hosr
        refine iff_of_true ?_ ?_
        · rw [hfs2]
          simp [hsep2]
        · rw [hru]
          decide
      · obtain ⟨dl, hld, hosrm⟩ := hrem hrn
        have hdl : dl = pjoin cachedir fu.1 := (Option.some.inj hld).symm
        subst hdl
        obtain ⟨cc, -, -, hfs2⟩ := os_remove_some wf
          (fsWrite fs (pjoin cachedir fu.1) c) (pjoin cachedir fu.1) fs2
          hosrm
        refine iff_of_true ?_ ?_
        · rw [hfs2]
          simp
        · rw [hrn]
          decide
      · have hfs2 := hid (by rw [hrl]; decide) (by rw [hrl]; decide)
        refine iff_of_false ?_ ?_
        · rw [hfs2]
          simp [fsWrite, setFS]
        · rw [hrl]
          simp

/-- Cache state after a successful loop: an entry whose fetch succeeded
has no staged file left exactly when its outcome is not
LOCAL_CHANGE_REMOTE_CHANGE. -/
theorem batchGo_cache (hashf : HashFn) (net : String → NetResult)
    (wf : String → Bool) (basedir cachedir : String)
    (name2hash : List (String × Option String)) (algorithm : String) :
    ∀ (entries : List (String × String)) (fs fs' : FS)
      (vals : List (Nat × Option String)),
      batchGo hashf net wf basedir cachedir name2hash algorithm fs entries
        = (fs', .ok vals) →
      (entries.map Prod.fst).Nodup →
      (∀ f g, f ∈ entries.map Prod.fst → g ∈ entries.map Prod.fst →
        pjoin basedir f ≠ pjoin cachedir g) →
      ∀ i (hi : i < entries.length) (hv : i < vals.length),
        net entries[i].2 ≠ .err →
        (fs' (pjoin cachedir entries[i].1) = none
          ↔ vals[i].1 ≠ LOCAL_CHANGE_REMOTE_CHANGE)
  | [], fs, fs', vals, h, hnd, hsep, i, hi, hv, hfetch => absurd hi (by simp)
  | fu :: es, fs, fs', vals, h, hnd, hsep, i, hi, hv, hfetch => by
    have hdecomp : (∀ x, (fu.1, x) ∉ es) ∧ (es.map Prod.fst).Nodup := by
      simpa using hnd
    have hhead : fu.1 ∉ es.map Prod.fst := by
      intro hm
      obtain ⟨p, hpm, hfst⟩ := List.mem_map.mp hm
      refine hdecomp.1 p.2 ?_
      have hpe2 : (fu.1, p.2) = p := by rw [← hfst]
      rw [hpe2]
      exact hpm
    rcases hpe : procEntry hashf net wf basedir cachedir name2hash algorithm
      fs fu with ⟨fs1, r1⟩
    cases r1 with
    | err e =>
      simp only [batchGo, hpe] at h
      simp at h
    | ok r nh =>
      simp only [batchGo, hpe] at h
      rcases hb : batchGo hashf net wf basedir cachedir name2hash algorithm
        fs1 es with ⟨fs2, r2⟩
      cases r2 with
      | err e =>
        rw [hb] at h
        simp at h
      | ok vs =>
        rw [hb] at h
        simp at h
        obtain ⟨h1, h2⟩ := h
        subst h1
        subst h2
        cases i with
        | zero =>
          obtain ⟨c, hc⟩ : ∃ c, net fu.2 = .stream c none := by
            rcases hn : net fu.2 with _ | ⟨c, itr⟩
            · exact absurd hn hfetch
            · rcases itr with _ | n
              · exact ⟨c, rfl⟩
              · exfalso
                rcases hl : List.lookup fu.1 name2hash with _ | hp2
                · simp [procEntry, hl] at hpe
                · simp [procEntry, hl, download, hn] at hpe
          have hpost := procEntry_cache_post hashf net wf basedir cachedir
            name2hash algorithm fs fu fs1 r nh c hpe hc
            (hsep fu.1 fu.1 (by simp) (by simp))
          have hfr : fs2 (pjoin cachedir fu.1) = fs1 (pjoin cachedir fu.1) :=
            batchGo_frame hashf net wf basedir cachedir name2hash algorithm
              es fs1 fs2 (.ok vs) hb (pjoin cachedir fu.1) (fun e he => by
                constructor
                · intro hx
                  have he1 : e.1 ∈ es.map Prod.fst :=
                    List.mem_map_of_mem Prod.fst he
                  have : fu.1 = e.1 := pjoin_right_inj cachedir fu.1 e.1 hx
                  exact hhead (this ▸ he1)
                · intro hx
                  have he1 : e.1 ∈ es.map Prod.fst :=
                    List.mem_map_of_mem Prod.fst he
                  exact hsep e.1 fu.1 (by simp [he1]) (by simp) hx.symm)
          simp only [List.getElem_cons_zero]
          rw [hfr]
          exact hpost
        | succ j =>
          exact batchGo_cache hashf net wf basedir cachedir name2hash
            algorithm es fs1 fs2 vs hb hdecomp.2
            (fun f g hf hg => hsep f g (by simp [hf]) (by simp [hg])) j
            (by simpa using hi) (by simpa using hv) (by simpa using hfetch)

/-- C6 (amended): after a batch run that returns normally, with unique
names, base/cache path separation, and every fetch reaching this entry
successful, the entry's staged file remains in the cache directory
exactly when it was classified LOCAL_CHANGE_REMOTE_CHANGE; UPDATED and
NO_REMOTE_CHANGE consume their staged files. -/
theorem maintain_batch_staged_files (hashf : HashFn)
    (net : String → NetResult) (wf : String → Bool)
    (basedir cachedir : String) (name_url : List (String × String))
    (name2hash : List (String × Option String)) (algorithm : String)
    (fs fs' : FS) (rets : List Nat) (ups : List (String × String))
    (h : maintain_batch hashf net wf basedir cachedir name_url name2hash
      algorithm fs = (fs', .ok rets ups))
    (hnd : (name_url.map Prod.fst).Nodup)
    (hsep : ∀ f g, f ∈ name_url.map Prod.fst → g ∈ name_url.map Prod.fst →
      pjoin basedir f ≠ pjoin cachedir g)
    (i : Nat) (hi : i < name_url.length)
    (hfetch : net name_url[i].2 ≠ .err) :
    (fs' (pjoin cachedir name_url[i].1) = none
      ↔ rets.getD i UPDATED ≠ LOCAL_CHANGE_REMOTE_CHANGE) := by
  obtain ⟨hlen, vals, hb, hrets, -⟩ := maintain_batch_ok_inv hashf net wf
    basedir cachedir name_url name2hash algorithm fs fs' rets ups h
  subst hrets
  obtain ⟨hvlen, -⟩ := batchGo_ok_vals hashf net wf basedir cachedir
    name2hash algorithm name_url fs fs' vals hb
  have hv : i < vals.length := by rw [hvlen]; exact hi
  have hget : (vals.map Prod.fst).getD i UPDATED = vals[i].1 := by
    rw [List.getD_eq_getElem (vals.map Prod.fst) UPDATED (by simpa using hv)]
    simp
  rw [hget]
  exact batchGo_cache hashf net wf basedir cachedir name2hash algorithm
    name_url fs fs' vals hb hnd hsep i hi hv hfetch

/-- Counterexample for C6: a one-entry batch whose fetch succeeds but
whose outcome is LOCAL_CHANGE_REMOTE_CHANGE finishes with the staged file
still present in the cache directory, refuting the claim that no staged
file remains after a run whose fetches all succeeded. -/
theorem maintain_batch_staged_counterexample :
    (maintain_batch hashDemo netC5 (fun _ => false) "B" "C" [("a", "u")]
        [("a", some "[9]")] "sha" fsC5).2
      = .ok [LOCAL_CHANGE_REMOTE_CHANGE] [] ∧
    netC5 "u" ≠ NetResult.err ∧
    (maintain_batch hashDemo netC5 (fun _ => false) "B" "C" [("a", "u")]
        [("a", some "[9]")] "sha" fsC5).1 "C/a" = some [1] := by
  exact ⟨by decide, by decide, by decide⟩

/-- Witness for the amended C6: an UPDATED entry's staged file is
consumed, a LOCAL_CHANGE_REMOTE_CHANGE entry's staged file remains. -/
theorem maintain_batch_staged_files_witness :
    ((maintain_batch hashDemo netC5 (fun _ => false) "B" "C" [("a", "u")]
        [("a", none)] "sha" emptyFS).1 (pjoin "C" "a") = none
      ↔ [UPDATED].getD 0 UPDATED ≠ LOCAL_CHANGE_REMOTE_CHANGE) ∧
    ((maintain_batch hashDemo netC5 (fun _ => false) "B" "C" [("a", "u")]
        [("a", some "[9]")] "sha" fsC5).1 (pjoin "C" "a") = none
      ↔ [LOCAL_CHANGE_REMOTE_CHANGE].getD 0 UPDATED
          ≠ LOCAL_CHANGE_REMOTE_CHANGE) := by
  constructor
  · have h1 : maintain_batch hashDemo netC5 (fun _ => false) "B" "C"
        [("a", "u")] [("a", none)] "sha" emptyFS
        = ((maintain_batch hashDemo netC5 (fun _ => false) "B" "C"
            [("a", "u")] [("a", none)] "sha" emptyFS).1,
           .ok [UPDATED] [("a", "[1]")]) := Prod.ext rfl (by decide)
    exact maintain_batch_staged_files hashDemo netC5 (fun _ => false) "B" "C"
      [("a", "u")] [("a", none)] "sha" emptyFS _ [UPDATED] [("a", "[1]")] h1
      (by decide)
      (fun f g hf hg => by
        simp at hf hg
        subst hf
        subst hg
        decide) 0 (by decide) (by decide)
  · have h2 : maintain_batch hashDemo netC5 (fun _ => false) "B" "C"
        [("a", "u")] [("a", some "[9]")] "sha" fsC5
        = ((maintain_batch hashDemo netC5 (fun _ => false) "B" "C"
            [("a", "u")] [("a", some "[9]")] "sha" fsC5).1,
           .ok [LOCAL_CHANGE_REMOTE_CHANGE] []) := Prod.ext rfl (by decide)
    exact maintain_batch_staged_files hashDemo netC5 (fun _ => false) "B" "C"
      [("a", "u")] [("a", some "[9]")] "sha" fsC5 _
      [LOCAL_CHANGE_REMOTE_CHANGE] [] h2 (by decide)
      (fun f g hf hg => by
        simp at hf hg
        subst hf
        subst hg
        decide) 0 (by decide) (by decide)
